import Mathlib

/-!
Verification of the docker-inspector snapshot/diff/extraction engine.

This file gives a shallow embedding, in Lean 4, of the core logic of the
oderwat/docker-inspector repository:

- the Entry model (FileInfo) shared by the snapshotter and the differ,
- the Differ (Compare, compareFiles, isSpecialFile from the diff source file),
- the extraction path transform (getDestPath) and extractID from
  cmd/docker-inspector/main.go,
- the snapshotter walk callbacks of the two internal-inspector variants
  present in the repository (cmd/internal-inspector/main.go, called the
  cmd variant below, and the JSON-only variant, called the p1 variant),
  together with a model of filepath.Walk.

Modelling conventions:
- Go int64/int values are modelled as Lean Int (counts as Nat); no claim
  here depends on machine overflow.
- Go time.Time values are modelled as Int instants; time.Time.Equal is Int
  equality and RFC3339 rendering is abstracted by an injective rendering
  function (no claim depends on the rendered text of a timestamp).
- Go strings are modelled as Lean String; strings.HasPrefix is embedded as
  a character-list prefix test (equivalent on the ASCII prefixes used here).
- MD5 digesting of file contents (calculateMD5) is modelled as an oracle
  attached to each filesystem node: an Except value carrying either the
  digest string or the error text, exactly the two outcomes of the Go
  function. The gating logic around it is embedded literally.
- Go maps are modelled as association lists with Go insert semantics
  (replace the binding if the key is present). Go map iteration order is
  unspecified, so the functions that iterate a map are stated over an
  explicit entry list, and theorems that depend on iteration order
  quantify over (or exhibit) permutations of that list.
-/

/-- Kind of a filesystem node: directory, regular file, or symlink. -/
inductive FKind where
  | dir
  | regular
  | symlink
deriving DecidableEq, Repr

/-- Comparison mode of the differ (Mode in the diff source): CompareAll
includes modification times, CompareNoTimes excludes them. -/
inductive Mode where
  | compareAll
  | compareNoTimes
deriving DecidableEq, Repr

/-- Change tag of a difference (Change in the diff source). -/
inductive Change where
  | added
  | removed
  | modified
deriving DecidableEq, Repr

/-- FileInfo: the entry record shared by the inspector and the differ.
ModTime is an optional instant (a nil pointer in Go is none); MD5 is the
empty string when absent (the Go zero value). -/
structure FileInfo where
  path : String
  size : Int
  mode : String
  modTime : Option Int
  isDir : Bool
  symlinkTo : String
  user : String
  group : String
  md5 : String
deriving DecidableEq, Repr

/-- Zero value of FileInfo, as Go produces for an absent OldFile/NewFile. -/
def zeroFileInfo : FileInfo :=
  { path := "", size := 0, mode := "", modTime := none, isDir := false,
    symlinkTo := "", user := "", group := "", md5 := "" }

/-- FileDiff: one classified difference (FileDiff in the diff source). -/
structure FileDiff where
  path : String
  type : Change
  oldFile : FileInfo
  newFile : FileInfo
  details : List String
deriving DecidableEq, Repr

/-- Summary counts of a comparison (Summary in the diff source). -/
structure Summary where
  totalDifferences : Int
  addedFiles : Int
  removedFiles : Int
  modifiedFiles : Int
deriving DecidableEq, Repr

/-- Result: the complete diff information (Result in the diff source). -/
structure Result where
  differences : List FileDiff
  summary : Summary
deriving DecidableEq, Repr

/-- Embedding of strings.HasPrefix as a character-level prefix test. -/
def strStarts (s pre : String) : Bool :=
  pre.data.isPrefixOf s.data

/-- Abstract rendering of a time instant (stands for RFC3339 formatting;
injective, and no theorem below depends on the produced text). -/
def fmtTime (t : Int) : String :=
  toString t

/-- isSpecialFile from the diff source: paths the differ ignores because
they vary spuriously between runs of the same image. -/
def isSpecialFile (path : String) : Bool :=
  strStarts path "/proc/" || strStarts path "/sys/" || strStarts path "/dev/" ||
  path == "/etc/resolv.conf" || path == "/etc/hostname" || path == "/etc/hosts"

/-- Modification-time clause of compareFiles: only in CompareAll mode and
only when both entries carry a timestamp. -/
def timeDetail (mode : Mode) (t1 t2 : Option Int) : List String :=
  match mode, t1, t2 with
  | Mode.compareAll, some a, some b =>
      if a ≠ b then
        ["modification time changed: " ++ fmtTime a ++ " -> " ++ fmtTime b]
      else []
  | _, _, _ => []

/-- compareFiles from the diff source: the list of human-readable deltas
between two entries sharing one path. -/
def compareFiles (old new : FileInfo) (mode : Mode) : List String :=
  (if old.size ≠ new.size then
    ["size changed: " ++ toString old.size ++ " -> " ++ toString new.size]
   else [])
  ++ (if old.mode ≠ new.mode then
    ["permissions changed: " ++ old.mode ++ " -> " ++ new.mode]
   else [])
  ++ (if old.user ≠ new.user ∨ old.group ≠ new.group then
    ["ownership changed: " ++ old.user ++ ":" ++ old.group ++ " -> " ++
      new.user ++ ":" ++ new.group]
   else [])
  ++ timeDetail mode old.modTime new.modTime
  ++ (if old.md5 ≠ "" ∧ new.md5 ≠ "" ∧ old.md5 ≠ new.md5 then
    ["content changed (different MD5)"]
   else [])

/-- Lookup in a Go map modelled as an association list. -/
def lookupFI : List (String × FileInfo) → String → Option FileInfo
  | [], _ => none
  | kv :: rest, k => if kv.1 = k then some kv.2 else lookupFI rest k

/-- Insert into a Go map modelled as an association list: replace the
binding when the key is present, append otherwise. -/
def mapInsert : List (String × FileInfo) → String → FileInfo → List (String × FileInfo)
  | [], k, v => [(k, v)]
  | kv :: rest, k, v => if kv.1 = k then (k, v) :: rest else kv :: mapInsert rest k v

/-- Map population loop of Compare: skip special files, last write wins. -/
def mkFileMap (files : List FileInfo) : List (String × FileInfo) :=
  files.foldl (fun m f => if isSpecialFile f.path then m else mapInsert m f.path f) []

/-- Removed diff record as Compare builds it. -/
def mkRemoved (path : String) (oldFile : FileInfo) : FileDiff :=
  { path := path, type := Change.removed, oldFile := oldFile,
    newFile := zeroFileInfo, details := [] }

/-- Added diff record as Compare builds it. -/
def mkAdded (path : String) (newFile : FileInfo) : FileDiff :=
  { path := path, type := Change.added, oldFile := zeroFileInfo,
    newFile := newFile, details := [] }

/-- Modified diff record as Compare builds it. -/
def mkModified (path : String) (oldFile newFile : FileInfo) (details : List String) : FileDiff :=
  { path := path, type := Change.modified, oldFile := oldFile,
    newFile := newFile, details := details }

/-- First loop of Compare: walk the old map in the given iteration order
and emit a Removed diff for every path absent from the new map. -/
def removedLoop : List (String × FileInfo) → List (String × FileInfo) → List FileDiff
  | [], _ => []
  | kv :: rest, newM =>
    (if (lookupFI newM kv.1).isSome then [] else [mkRemoved kv.1 kv.2])
      ++ removedLoop rest newM

/-- Second loop of Compare: walk the new map in the given iteration order
and emit Added diffs for new paths and Modified diffs for changed paths. -/
def addModLoop : List (String × FileInfo) → List (String × FileInfo) → Mode → List FileDiff
  | [], _, _ => []
  | kv :: rest, oldM, mode =>
    (match lookupFI oldM kv.1 with
     | none => [mkAdded kv.1 kv.2]
     | some oldFile =>
       let ds := compareFiles oldFile kv.2 mode
       if ds = [] then [] else [mkModified kv.1 oldFile kv.2 ds])
      ++ addModLoop rest oldM mode

/-- Body of Compare on two already-populated maps, given as entry lists in
iteration order. The counters mirror the increments in the source: one per
emitted diff of the respective kind. -/
def compareOnMaps (oldM newM : List (String × FileInfo)) (mode : Mode) : Result :=
  let removed := removedLoop oldM newM
  let addMod := addModLoop newM oldM mode
  let addedN : Int := (addMod.filter (fun d => d.type == Change.added)).length
  let modifiedN : Int := (addMod.filter (fun d => d.type == Change.modified)).length
  { differences := removed ++ addMod,
    summary :=
      { addedFiles := addedN,
        removedFiles := (removed.length : Int),
        modifiedFiles := modifiedN,
        totalDifferences := addedN + (removed.length : Int) + modifiedN } }

/-- Compare on two snapshots, iterating each map in first-insertion order
(one of the unspecified Go map iteration orders). -/
def compareOk (old new : List FileInfo) (mode : Mode) : Result :=
  compareOnMaps (mkFileMap old) (mkFileMap new) mode

/-- Compare from the diff source. The Go function returns (*Result, error)
and has no failing path, hence the result is always Except.ok. -/
def Compare (old new : List FileInfo) (mode : Mode) : Except String Result :=
  Except.ok (compareOk old new mode)

/-- Paths of the differences of a result that carry a given change tag. -/
def pathsOf (r : Result) (c : Change) : List String :=
  (r.differences.filter (fun d => d.type == c)).map FileDiff.path

example : isSpecialFile "/proc/1/stat" = true := by decide
example : isSpecialFile "/proc" = false := by decide
example : isSpecialFile "/etc/hosts" = true := by decide

/-! Basic lemmas about the diff core. -/

/-- Helper: a one-element conditional list is empty iff the condition fails. -/
theorem ite_cons_nil {c : Prop} [Decidable c] (x : String) :
    ((if c then [x] else [] : List String) = []) ↔ ¬c := by
  split <;> simp_all

/-- Comparing an entry with itself yields no deltas. -/
theorem compareFiles_self (f : FileInfo) (mode : Mode) : compareFiles f f mode = [] := by
  cases mode <;> cases h : f.modTime <;> simp [compareFiles, timeDetail, h]

/-- Emptiness of the time clause is symmetric in the two entries. -/
theorem timeDetail_nil_symm (mode : Mode) (t1 t2 : Option Int) :
    timeDetail mode t1 t2 = [] ↔ timeDetail mode t2 t1 = [] := by
  cases mode <;> cases t1 <;> cases t2 <;>
    first
      | (simp [timeDetail]; exact eq_comm)
      | simp [timeDetail]

/-- Characterisation of an empty delta list. -/
theorem compareFiles_nil_iff (a b : FileInfo) (mode : Mode) :
    compareFiles a b mode = [] ↔
      a.size = b.size ∧ a.mode = b.mode ∧ (a.user = b.user ∧ a.group = b.group) ∧
      timeDetail mode a.modTime b.modTime = [] ∧
      ¬(a.md5 ≠ "" ∧ b.md5 ≠ "" ∧ a.md5 ≠ b.md5) := by
  simp only [compareFiles, List.append_eq_nil, ite_cons_nil, not_or, not_not]
  tauto

/-- Emptiness of the delta list is symmetric in the two entries. -/
theorem compareFiles_nil_symm (a b : FileInfo) (mode : Mode) :
    compareFiles a b mode = [] ↔ compareFiles b a mode = [] := by
  simp only [compareFiles_nil_iff]
  constructor <;> rintro ⟨h1, h2, ⟨h3, h4⟩, h5, h6⟩ <;>
    exact ⟨h1.symm, h2.symm, ⟨h3.symm, h4.symm⟩, (timeDetail_nil_symm _ _ _).mp h5,
      fun ⟨x, y, z⟩ => h6 ⟨y, x, fun e => z e.symm⟩⟩

/-- Lookup of a key found somewhere in the list is some value. -/
theorem lookupFI_isSome_iff (m : List (String × FileInfo)) (p : String) :
    (lookupFI m p).isSome ↔ ∃ kv ∈ m, kv.1 = p := by
  induction m with
  | nil => simp [lookupFI]
  | cons kv rest ih =>
    by_cases h : kv.1 = p <;> simp [lookupFI, h, ih]

/-- Lookup of the head key. -/
theorem lookupFI_cons_self (k : String) (v : FileInfo) (rest : List (String × FileInfo)) :
    lookupFI ((k, v) :: rest) k = some v := by
  simp [lookupFI]

/-- Lookup after a Go-map insert. -/
theorem lookupFI_mapInsert (m : List (String × FileInfo)) (k p : String) (v : FileInfo) :
    lookupFI (mapInsert m k v) p = if p = k then some v else lookupFI m p := by
  induction m with
  | nil =>
    by_cases h : p = k
    · subst h; simp [mapInsert, lookupFI]
    · simp [mapInsert, lookupFI, h, Ne.symm h]
  | cons kv rest ih =>
    by_cases hk : kv.1 = k
    · by_cases hp : p = k
      · subst hp; simp [mapInsert, hk, lookupFI]
      · have h2 : kv.1 ≠ p := by rw [hk]; exact Ne.symm hp
        simp [mapInsert, hk, lookupFI, Ne.symm hp, h2, hp]
    · by_cases hp : kv.1 = p
      · have h3 : ¬p = k := fun e => hk (hp.trans e)
        simp [mapInsert, lookupFI, hk, hp, h3]
      · simp [mapInsert, lookupFI, hk, hp, ih]

/-- Keys present after an insert. -/
theorem mem_keys_mapInsert (m : List (String × FileInfo)) (k p : String) (v : FileInfo) :
    (∃ kv ∈ mapInsert m k v, kv.1 = p) ↔ (∃ kv ∈ m, kv.1 = p) ∨ p = k := by
  induction m with
  | nil => simp [mapInsert, eq_comm]
  | cons kv0 rest ih =>
    by_cases hk : kv0.1 = k
    · simp only [mapInsert, hk, if_pos, List.mem_cons]
      constructor
      · rintro ⟨kv1, rfl | hmem, hp1⟩
        · exact Or.inr hp1.symm
        · exact Or.inl ⟨kv1, Or.inr hmem, hp1⟩
      · rintro (⟨kv1, rfl | hmem, hp1⟩ | hpk)
        · exact ⟨(k, v), Or.inl rfl, hk.symm.trans hp1⟩
        · exact ⟨kv1, Or.inr hmem, hp1⟩
        · exact ⟨(k, v), Or.inl rfl, hpk.symm⟩
    · simp only [mapInsert, hk, if_neg, not_false_iff, List.mem_cons]
      constructor
      · rintro ⟨kv1, rfl | hmem, hp1⟩
        · exact Or.inl ⟨kv1, Or.inl rfl, hp1⟩
        · rcases ih.mp ⟨kv1, hmem, hp1⟩ with ⟨kv2, hm2, hp2⟩ | h'
          · exact Or.inl ⟨kv2, Or.inr hm2, hp2⟩
          · exact Or.inr h'
      · rintro (⟨kv1, rfl | hmem, hp1⟩ | hpk)
        · exact ⟨kv1, Or.inl rfl, hp1⟩
        · rcases ih.mpr (Or.inl ⟨kv1, hmem, hp1⟩) with ⟨kv2, hm2, hp2⟩
          exact ⟨kv2, Or.inr hm2, hp2⟩
        · rcases ih.mpr (Or.inr hpk) with ⟨kv2, hm2, hp2⟩
          exact ⟨kv2, Or.inr hm2, hp2⟩

/-- Inserting preserves distinctness of keys. -/
theorem nodup_keys_mapInsert (m : List (String × FileInfo)) (k : String) (v : FileInfo)
    (h : (m.map Prod.fst).Nodup) : ((mapInsert m k v).map Prod.fst).Nodup := by
  induction m with
  | nil => simp [mapInsert]
  | cons kv rest ih =>
    simp only [List.map_cons, List.nodup_cons] at h
    by_cases hk : kv.1 = k
    · simp only [mapInsert, hk, if_pos, List.map_cons, List.nodup_cons]
      exact ⟨by rw [← hk]; exact h.1, h.2⟩
    · simp only [mapInsert, hk, if_neg, not_false_iff, List.map_cons, List.nodup_cons]
      refine ⟨?_, ih h.2⟩
      intro hmem
      rcases List.mem_map.mp hmem with ⟨kv2, hkv2, he⟩
      rcases (mem_keys_mapInsert rest k kv.1 v).mp ⟨kv2, hkv2, he⟩ with ⟨kv3, hkv3, he3⟩ | h'
      · exact h.1 (List.mem_map.mpr ⟨kv3, hkv3, he3⟩)
      · exact hk h'

/-- Keys of the map built by the population loop are distinct. -/
theorem nodup_keys_mkFileMap (files : List FileInfo) :
    ((mkFileMap files).map Prod.fst).Nodup := by
  suffices h : ∀ (l : List FileInfo) (m : List (String × FileInfo)),
      (m.map Prod.fst).Nodup →
      ((l.foldl (fun m f => if isSpecialFile f.path then m else mapInsert m f.path f) m).map
        Prod.fst).Nodup by
    exact h files [] (by simp)
  intro l
  induction l with
  | nil => intro m hm; simpa using hm
  | cons f rest ih =>
    intro m hm
    simp only [List.foldl_cons]
    by_cases hs : isSpecialFile f.path
    · simpa [hs] using ih m hm
    · simpa [hs] using ih (mapInsert m f.path f) (nodup_keys_mapInsert m f.path f hm)

/-- With distinct keys, membership of an entry determines the lookup. -/
theorem lookupFI_eq_of_mem_nodup (m : List (String × FileInfo)) (kv : String × FileInfo)
    (hn : (m.map Prod.fst).Nodup) (hm : kv ∈ m) : lookupFI m kv.1 = some kv.2 := by
  induction m with
  | nil => cases hm
  | cons kv0 rest ih =>
    simp only [List.map_cons, List.nodup_cons] at hn
    rcases List.mem_cons.mp hm with h | h
    · subst h; simp [lookupFI]
    · have hne : kv0.1 ≠ kv.1 := by
        intro he
        exact hn.1 (List.mem_map.mpr ⟨kv, h, he.symm⟩)
      simp [lookupFI, hne, ih hn.2 h]

/-- A successful lookup comes from a member entry. -/
theorem mem_of_lookupFI_eq (m : List (String × FileInfo)) (p : String) (v : FileInfo)
    (h : lookupFI m p = some v) : (p, v) ∈ m := by
  induction m with
  | nil => simp [lookupFI] at h
  | cons kv0 rest ih =>
    by_cases he : kv0.1 = p
    · subst he
      simp only [lookupFI, if_pos] at h
      cases h
      exact List.mem_cons_self _ _
    · simp only [lookupFI, he, if_neg, not_false_iff] at h
      exact List.mem_cons_of_mem _ (ih h)

/-- The removed loop emits nothing when every old path is present in the
new map. -/
theorem removedLoop_nil (l newM : List (String × FileInfo))
    (h : ∀ kv ∈ l, (lookupFI newM kv.1).isSome) : removedLoop l newM = [] := by
  induction l with
  | nil => rfl
  | cons kv rest ih =>
    simp only [removedLoop, h kv (List.mem_cons_self _ _), if_pos, List.nil_append]
    exact ih fun kv2 h2 => h kv2 (List.mem_cons_of_mem _ h2)

/-- The added/modified loop emits nothing when every new entry maps to an
identical old entry. -/
theorem addModLoop_nil (l oldM : List (String × FileInfo)) (mode : Mode)
    (h : ∀ kv ∈ l, lookupFI oldM kv.1 = some kv.2) : addModLoop l oldM mode = [] := by
  induction l with
  | nil => rfl
  | cons kv rest ih =>
    simp only [addModLoop, h kv (List.mem_cons_self _ _), compareFiles_self, if_pos,
      List.nil_append]
    exact ih fun kv2 h2 => h kv2 (List.mem_cons_of_mem _ h2)

/-- C3 Comparing any snapshot with itself over any mode yields a ChangeSet
with an empty differences sequence and all four summary counts zero. -/
theorem Compare_self_empty (S : List FileInfo) (mode : Mode) :
    Compare S S mode =
      Except.ok
        { differences := [],
          summary :=
            { totalDifferences := 0, addedFiles := 0, removedFiles := 0, modifiedFiles := 0 } } := by
  have hrem : removedLoop (mkFileMap S) (mkFileMap S) = [] :=
    removedLoop_nil _ _ fun kv hm =>
      (lookupFI_isSome_iff _ _).mpr ⟨kv, hm, rfl⟩
  have hadd : addModLoop (mkFileMap S) (mkFileMap S) mode = [] :=
    addModLoop_nil _ _ _ fun kv hm =>
      lookupFI_eq_of_mem_nodup _ kv (nodup_keys_mkFileMap S) hm
  simp [Compare, compareOk, compareOnMaps, hrem, hadd]

/-- Diffs from the removed loop are tagged Removed. -/
theorem removedLoop_types (l newM : List (String × FileInfo)) (d : FileDiff)
    (h : d ∈ removedLoop l newM) : d.type = Change.removed := by
  induction l with
  | nil => cases h
  | cons kv rest ih =>
    simp only [removedLoop, List.mem_append] at h
    rcases h with h | h
    · by_cases hs : (lookupFI newM kv.1).isSome
      · simp [hs] at h
      · have hn : lookupFI newM kv.1 = none := Option.not_isSome_iff_eq_none.mp hs
        simp only [hn, Option.isSome_none, Bool.false_eq_true, if_false,
          List.mem_singleton] at h
        subst h; rfl
    · exact ih h

/-- Diffs from the added/modified loop are tagged Added or Modified. -/
theorem addModLoop_types (l oldM : List (String × FileInfo)) (mode : Mode) (d : FileDiff)
    (h : d ∈ addModLoop l oldM mode) : d.type = Change.added ∨ d.type = Change.modified := by
  induction l with
  | nil => cases h
  | cons kv rest ih =>
    simp only [addModLoop, List.mem_append] at h
    rcases h with h | h
    · rcases hl : lookupFI oldM kv.1 with _ | v
      · rw [hl] at h
        simp only [List.mem_singleton] at h
        subst h; exact Or.inl rfl
      · rw [hl] at h
        simp only at h
        split at h
        · cases h
        · simp only [List.mem_singleton] at h
          subst h; exact Or.inr rfl
    · exact ih h

/-- Membership in the removed loop output. -/
theorem mem_removedLoop (l newM : List (String × FileInfo)) (d : FileDiff) :
    d ∈ removedLoop l newM ↔
      ∃ kv ∈ l, lookupFI newM kv.1 = none ∧ d = mkRemoved kv.1 kv.2 := by
  induction l with
  | nil => simp [removedLoop]
  | cons kv rest ih =>
    simp only [removedLoop, List.mem_append, ih, List.mem_cons]
    by_cases hs : (lookupFI newM kv.1).isSome
    · rcases Option.isSome_iff_exists.mp hs with ⟨v, hv⟩
      simp only [hs, if_pos, List.not_mem_nil, false_or]
      constructor
      · rintro ⟨kv2, hm2, hl2, hd2⟩
        exact ⟨kv2, Or.inr hm2, hl2, hd2⟩
      · rintro ⟨kv2, rfl | hm2, hl2, hd2⟩
        · rw [hv] at hl2; cases hl2
        · exact ⟨kv2, hm2, hl2, hd2⟩
    · have hn : lookupFI newM kv.1 = none := Option.not_isSome_iff_eq_none.mp hs
      simp only [hn, Option.isSome_none, Bool.false_eq_true, if_false, List.mem_singleton]
      constructor
      · rintro (rfl | ⟨kv2, hm2, hl2, hd2⟩)
        · exact ⟨kv, Or.inl rfl, hn, rfl⟩
        · exact ⟨kv2, Or.inr hm2, hl2, hd2⟩
      · rintro ⟨kv2, rfl | hm2, hl2, hd2⟩
        · exact Or.inl hd2
        · exact Or.inr ⟨kv2, hm2, hl2, hd2⟩

/-- Membership in the added/modified loop output. -/
theorem mem_addModLoop (l oldM : List (String × FileInfo)) (mode : Mode) (d : FileDiff) :
    d ∈ addModLoop l oldM mode ↔
      ∃ kv ∈ l,
        (lookupFI oldM kv.1 = none ∧ d = mkAdded kv.1 kv.2) ∨
        (∃ v, lookupFI oldM kv.1 = some v ∧ compareFiles v kv.2 mode ≠ [] ∧
          d = mkModified kv.1 v kv.2 (compareFiles v kv.2 mode)) := by
  induction l with
  | nil => simp [addModLoop]
  | cons kv rest ih =>
    simp only [addModLoop, List.mem_append, ih, List.mem_cons]
    constructor
    · rintro (h | ⟨kv2, hm2, hcase⟩)
      · rcases hl : lookupFI oldM kv.1 with _ | v
        · rw [hl] at h
          simp only [List.mem_singleton] at h
          exact ⟨kv, Or.inl rfl, Or.inl ⟨hl, h⟩⟩
        · rw [hl] at h
          simp only at h
          split at h
          · cases h
          · simp only [List.mem_singleton] at h
            rename_i hne
            exact ⟨kv, Or.inl rfl, Or.inr ⟨v, hl, hne, h⟩⟩
      · exact ⟨kv2, Or.inr hm2, hcase⟩
    · rintro ⟨kv2, rfl | hm2, hcase⟩
      · left
        rcases hcase with ⟨hl, rfl⟩ | ⟨v, hl, hne, rfl⟩
        · rw [hl]; exact List.mem_singleton_self _
        · rw [hl]
          simp only
          rw [if_neg hne]
          exact List.mem_singleton_self _
      · exact Or.inr ⟨kv2, hm2, hcase⟩

/-- Removed paths of a comparison: exactly the old keys absent from new. -/
theorem mem_pathsOf_removed (oldM newM : List (String × FileInfo)) (mode : Mode) (p : String) :
    p ∈ pathsOf (compareOnMaps oldM newM mode) Change.removed ↔
      (∃ kv ∈ oldM, kv.1 = p) ∧ lookupFI newM p = none := by
  simp only [pathsOf, compareOnMaps, List.filter_append, List.map_append, List.mem_append]
  constructor
  · rintro (h | h) <;> rcases List.mem_map.mp h with ⟨d, hdf, rfl⟩ <;>
      rcases List.mem_filter.mp hdf with ⟨hdm, _⟩
    · rcases (mem_removedLoop _ _ _).mp hdm with ⟨kv, hm, hl, rfl⟩
      exact ⟨⟨kv, hm, rfl⟩, hl⟩
    · rcases addModLoop_types _ _ _ _ hdm with h2 | h2 <;>
        rcases List.mem_filter.mp hdf with ⟨_, hty⟩ <;>
        rw [h2] at hty <;> simp at hty
  · rintro ⟨⟨kv, hm, rfl⟩, hl⟩
    left
    refine List.mem_map.mpr ⟨mkRemoved kv.1 kv.2, List.mem_filter.mpr ⟨?_, by rfl⟩, rfl⟩
    exact (mem_removedLoop _ _ _).mpr ⟨kv, hm, hl, rfl⟩

/-- Added paths of a comparison: exactly the new keys absent from old. -/
theorem mem_pathsOf_added (oldM newM : List (String × FileInfo)) (mode : Mode) (p : String) :
    p ∈ pathsOf (compareOnMaps oldM newM mode) Change.added ↔
      (∃ kv ∈ newM, kv.1 = p) ∧ lookupFI oldM p = none := by
  simp only [pathsOf, compareOnMaps, List.filter_append, List.map_append, List.mem_append]
  constructor
  · rintro (h | h) <;> rcases List.mem_map.mp h with ⟨d, hdf, rfl⟩ <;>
      rcases List.mem_filter.mp hdf with ⟨hdm, hty⟩
    · rw [removedLoop_types _ _ _ hdm] at hty; simp at hty
    · rcases (mem_addModLoop _ _ _ _).mp hdm with ⟨kv, hm, hcase⟩
      rcases hcase with ⟨hl, rfl⟩ | ⟨v, hl, hne, rfl⟩
      · exact ⟨⟨kv, hm, rfl⟩, hl⟩
      · simp [mkModified] at hty
  · rintro ⟨⟨kv, hm, rfl⟩, hl⟩
    right
    refine List.mem_map.mpr ⟨mkAdded kv.1 kv.2, List.mem_filter.mpr ⟨?_, by rfl⟩, rfl⟩
    exact (mem_addModLoop _ _ _ _).mpr ⟨kv, hm, Or.inl ⟨hl, rfl⟩⟩

/-- Modified paths of a comparison: keys present on both sides whose entry
comparison is non-empty. -/
theorem mem_pathsOf_modified (oldM newM : List (String × FileInfo)) (mode : Mode) (p : String) :
    p ∈ pathsOf (compareOnMaps oldM newM mode) Change.modified ↔
      ∃ kv ∈ newM, kv.1 = p ∧
        ∃ v, lookupFI oldM p = some v ∧ compareFiles v kv.2 mode ≠ [] := by
  simp only [pathsOf, compareOnMaps, List.filter_append, List.map_append, List.mem_append]
  constructor
  · rintro (h | h) <;> rcases List.mem_map.mp h with ⟨d, hdf, rfl⟩ <;>
      rcases List.mem_filter.mp hdf with ⟨hdm, hty⟩
    · rw [removedLoop_types _ _ _ hdm] at hty; simp at hty
    · rcases (mem_addModLoop _ _ _ _).mp hdm with ⟨kv, hm, hcase⟩
      rcases hcase with ⟨hl, rfl⟩ | ⟨v, hl, hne, rfl⟩
      · simp [mkAdded] at hty
      · exact ⟨kv, hm, rfl, v, hl, hne⟩
  · rintro ⟨kv, hm, rfl, v, hl, hne⟩
    right
    refine List.mem_map.mpr
      ⟨mkModified kv.1 v kv.2 (compareFiles v kv.2 mode), List.mem_filter.mpr ⟨?_, by rfl⟩, rfl⟩
    exact (mem_addModLoop _ _ _ _).mpr ⟨kv, hm, Or.inr ⟨v, hl, hne, rfl⟩⟩

/-- On a map with distinct keys, an existential over entries with a fixed
key is a statement about the lookup. -/
theorem exists_mem_iff_lookupFI (m : List (String × FileInfo)) (p : String)
    (P : FileInfo → Prop) (hn : (m.map Prod.fst).Nodup) :
    (∃ kv ∈ m, kv.1 = p ∧ P kv.2) ↔ ∃ v, lookupFI m p = some v ∧ P v := by
  constructor
  · rintro ⟨kv, hm, rfl, hp⟩
    exact ⟨kv.2, lookupFI_eq_of_mem_nodup m kv hn hm, hp⟩
  · rintro ⟨v, hl, hp⟩
    exact ⟨(p, v), mem_of_lookupFI_eq m p v hl, rfl, hp⟩

/-- C4 Compare is symmetric as a classification of paths: swapping the two
snapshots keeps the Modified path set fixed and swaps the Added set with
the Removed set, for every comparison mode. -/
theorem Compare_symmetric (A B : List FileInfo) (mode : Mode) (p : String) :
    (p ∈ pathsOf (compareOk A B mode) Change.modified ↔
      p ∈ pathsOf (compareOk B A mode) Change.modified) ∧
    (p ∈ pathsOf (compareOk A B mode) Change.added ↔
      p ∈ pathsOf (compareOk B A mode) Change.removed) ∧
    (p ∈ pathsOf (compareOk A B mode) Change.removed ↔
      p ∈ pathsOf (compareOk B A mode) Change.added) := by
  refine ⟨?_, ?_, ?_⟩
  · have h1 : p ∈ pathsOf (compareOk A B mode) Change.modified ↔
        ∃ fb, lookupFI (mkFileMap B) p = some fb ∧
          ∃ fa, lookupFI (mkFileMap A) p = some fa ∧ compareFiles fa fb mode ≠ [] :=
      (mem_pathsOf_modified _ _ _ _).trans
        (exists_mem_iff_lookupFI _ p
          (fun x => ∃ v, lookupFI (mkFileMap A) p = some v ∧ compareFiles v x mode ≠ [])
          (nodup_keys_mkFileMap B))
    have h2 : p ∈ pathsOf (compareOk B A mode) Change.modified ↔
        ∃ fa, lookupFI (mkFileMap A) p = some fa ∧
          ∃ fb, lookupFI (mkFileMap B) p = some fb ∧ compareFiles fb fa mode ≠ [] :=
      (mem_pathsOf_modified _ _ _ _).trans
        (exists_mem_iff_lookupFI _ p
          (fun x => ∃ v, lookupFI (mkFileMap B) p = some v ∧ compareFiles v x mode ≠ [])
          (nodup_keys_mkFileMap A))
    rw [h1, h2]
    constructor
    · rintro ⟨fb, hb, fa, ha, hne⟩
      exact ⟨fa, ha, fb, hb, fun e => hne ((compareFiles_nil_symm _ _ _).mp e)⟩
    · rintro ⟨fa, ha, fb, hb, hne⟩
      exact ⟨fb, hb, fa, ha, fun e => hne ((compareFiles_nil_symm _ _ _).mp e)⟩
  · rw [compareOk, compareOk, mem_pathsOf_added, mem_pathsOf_removed]
  · rw [compareOk, compareOk, mem_pathsOf_removed, mem_pathsOf_added]

/-- Lookup in the populated map, generalised over the fold accumulator:
the last non-special write to a key wins. -/
theorem lookupFI_mkFileMap_gen (l : List FileInfo) (m : List (String × FileInfo)) (p : String) :
    lookupFI (l.foldl (fun m f => if isSpecialFile f.path then m else mapInsert m f.path f) m) p =
      match (l.filter (fun f => f.path == p && !isSpecialFile f.path)).getLast? with
      | some f => some f
      | none => lookupFI m p := by
  induction l generalizing m with
  | nil => simp
  | cons f rest ih =>
    simp only [List.foldl_cons]
    by_cases hs : isSpecialFile f.path
    · have hfil : List.filter (fun f => f.path == p && !isSpecialFile f.path) (f :: rest) =
          List.filter (fun f => f.path == p && !isSpecialFile f.path) rest := by
        simp [List.filter_cons, hs]
      rw [if_pos hs, ih, hfil]
    · have hsf : isSpecialFile f.path = false := by simpa using hs
      by_cases hp : f.path = p
      · have hsp : isSpecialFile p = false := hp ▸ hsf
        have hfil : List.filter (fun f => f.path == p && !isSpecialFile f.path) (f :: rest) =
            f :: List.filter (fun f => f.path == p && !isSpecialFile f.path) rest := by
          simp [List.filter_cons, hsf, hsp, hp]
        rw [if_neg hs, ih, hfil]
        rcases hlast :
            (rest.filter fun f => f.path == p && !isSpecialFile f.path).getLast? with _ | g
        · have hnil := List.getLast?_eq_none_iff.mp hlast
          rw [hnil]
          simp only [List.getLast?_singleton]
          rw [lookupFI_mapInsert, if_pos hp.symm]
          rfl
        · have h2 : (f :: (rest.filter fun f => f.path == p && !isSpecialFile f.path)).getLast? =
              some g := by
            rcases hne : rest.filter (fun f => f.path == p && !isSpecialFile f.path) with _ | ⟨x, xs⟩
            · rw [hne] at hlast; cases hlast
            · rw [hne] at hlast
              rw [hne, List.getLast?_cons_cons]
              exact hlast
          rw [h2, hlast]
      · have hfil : List.filter (fun f => f.path == p && !isSpecialFile f.path) (f :: rest) =
            List.filter (fun f => f.path == p && !isSpecialFile f.path) rest := by
          simp [List.filter_cons, hp]
        rw [if_neg hs, ih, hfil]
        rcases hlast :
            (rest.filter fun f => f.path == p && !isSpecialFile f.path).getLast? with _ | g
        · rw [hlast]
          simp only
          rw [lookupFI_mapInsert, if_neg fun e => hp e.symm]
        · rw [hlast]

/-- C9 Compare never fails: it always returns a nil error with a result,
and on duplicate paths within one input the last occurrence wins in the
path index used for the comparison (special paths are never indexed). -/
theorem Compare_total_lastWins (old new : List FileInfo) (mode : Mode) (p : String) :
    Compare old new mode = Except.ok (compareOk old new mode) ∧
    lookupFI (mkFileMap old) p =
      (if isSpecialFile p then none
       else (old.filter (fun f => f.path == p)).getLast?) := by
  refine ⟨rfl, ?_⟩
  rw [mkFileMap, lookupFI_mkFileMap_gen]
  by_cases hs : isSpecialFile p
  · have hfil : old.filter (fun f => f.path == p && !isSpecialFile f.path) = [] := by
      rw [List.filter_eq_nil_iff]
      intro f hf
      by_cases hp : f.path = p
      · simp [hp, hs]
      · simp [hp]
    rw [hfil, if_pos hs]
    rfl
  · have hfil : old.filter (fun f => f.path == p && !isSpecialFile f.path) =
        old.filter (fun f => f.path == p) := by
      apply List.filter_congr
      intro f hf
      by_cases hp : f.path = p
      · have hsp : isSpecialFile p = false := by simpa using hs
        simp [hp, hsp]
      · simp [hp]
    rw [hfil, if_neg hs]
    rcases h : (old.filter (fun f => f.path == p)).getLast? with _ | g
    · rw [h]; rfl
    · rw [h]

/-- Character-level prefix tests coincide with string-level decomposition. -/
theorem strStarts_iff (s pre : String) :
    strStarts s pre = true ↔ ∃ r : String, s = pre ++ r := by
  rw [strStarts, List.isPrefixOf_iff_prefix]
  constructor
  · rintro ⟨t, ht⟩
    refine ⟨String.mk t, String.ext ?_⟩
    rw [String.data_append]
    exact ht.symm
  · rintro ⟨r, rfl⟩
    exact ⟨r.data, (String.data_append _ _).symm⟩

/-- Spurious-path predicate as the claim states it: strictly beneath one of
the three pseudo-filesystem mounts (prefix with trailing slash), or one of
the three exact host-configuration files. -/
def specSpurious (p : String) : Prop :=
  (∃ r : String, p = "/proc/" ++ r) ∨ (∃ r : String, p = "/sys/" ++ r) ∨
  (∃ r : String, p = "/dev/" ++ r) ∨
  p = "/etc/resolv.conf" ∨ p = "/etc/hostname" ∨ p = "/etc/hosts"

/-- C10 isSpecialFile excludes exactly the paths strictly beneath /proc,
/sys or /dev plus the three exact /etc files; the bare mount points are
not excluded and their entries enter the comparison index. -/
theorem isSpecialFile_exact (p : String) (f : FileInfo) :
    (isSpecialFile p = true ↔ specSpurious p) ∧
    isSpecialFile "/proc" = false ∧
    isSpecialFile "/sys" = false ∧
    isSpecialFile "/dev" = false ∧
    (f.path = "/proc" → lookupFI (mkFileMap [f]) "/proc" = some f) := by
  refine ⟨?_, by decide, by decide, by decide, ?_⟩
  · rw [isSpecialFile, specSpurious]
    simp only [Bool.or_eq_true, beq_iff_eq, strStarts_iff]
    tauto
  · intro hp
    have hs : isSpecialFile f.path = false := by rw [hp]; decide
    simp [mkFileMap, hs, mapInsert, lookupFI, hp]

/-- Sample directory entry at the bare /proc mount point. -/
def procEntry : FileInfo :=
  { zeroFileInfo with path := "/proc", mode := "drwxr-xr-x", isDir := true }

/-- Witness for the C10 theorem: the bare /proc entry is indexed. -/
theorem isSpecialFile_exact_witness :
    lookupFI (mkFileMap [procEntry]) "/proc" = some procEntry :=
  (isSpecialFile_exact "/proc" procEntry).2.2.2.2 rfl

/-- Sample regular-file entry at /a. -/
def fiA : FileInfo :=
  { path := "/a", size := 1, mode := "-rw-r--r--", modTime := none, isDir := false,
    symlinkTo := "", user := "root", group := "root", md5 := "" }

/-- Sample regular-file entry at /b. -/
def fiB : FileInfo :=
  { fiA with path := "/b" }

/-- C7 The order of the differences sequence depends on the map iteration
order: two iteration orders of the same old-files map (the entry list and
its reverse are permutations of each other, hence the same Go map) yield
the same summary but differently ordered differences. Go map iteration
order is unspecified and randomised between runs, and Compare never sorts
the differences, so the emitted order is not deterministic across runs. -/
theorem Compare_order_map_dependent :
    List.Perm (mkFileMap [fiA, fiB]) ((mkFileMap [fiA, fiB]).reverse) ∧
    (compareOnMaps (mkFileMap [fiA, fiB]) (mkFileMap []) Mode.compareAll).differences ≠
      (compareOnMaps ((mkFileMap [fiA, fiB]).reverse) (mkFileMap []) Mode.compareAll).differences ∧
    (compareOnMaps (mkFileMap [fiA, fiB]) (mkFileMap []) Mode.compareAll).summary =
      (compareOnMaps ((mkFileMap [fiA, fiB]).reverse) (mkFileMap []) Mode.compareAll).summary := by
  refine ⟨?_, by decide, by decide⟩
  decide

/-! Extraction path transform (getDestPath) and id extraction (extractID)
from cmd/docker-inspector/main.go. The Go standard library helpers used by
them (strings.Split on "/", strings.TrimPrefix, filepath.Join, filepath.Clean
for slash-separated paths) are embedded below on character lists. -/

/-- Split on the slash character, auxiliary form: current word and the
completed later words. -/
def splitSlashCore : List Char → List Char × List (List Char)
  | [] => ([], [])
  | c :: cs =>
    let r := splitSlashCore cs
    if c = '/' then ([], r.1 :: r.2) else (c :: r.1, r.2)

/-- Embedding of strings.Split(s, "/") on character lists: always returns
at least one (possibly empty) component. -/
def splitSlash (cs : List Char) : List (List Char) :=
  (splitSlashCore cs).1 :: (splitSlashCore cs).2

/-- Join components with slashes (inverse of splitSlash). -/
def joinSlash : List (List Char) → List Char
  | [] => []
  | [w] => w
  | w :: ws => w ++ '/' :: joinSlash ws

/-- Embedding of strings.TrimPrefix(s, "/"): drop one leading slash. -/
def trimLeadSlash : List Char → List Char
  | '/' :: cs => cs
  | cs => cs

/-- Component-stack processing of filepath.Clean: drop empty and dot
components, resolve dotdot against the stack (the stack is kept reversed). -/
def cleanCore (rooted : Bool) : List (List Char) → List (List Char) → List (List Char)
  | stack, [] => stack
  | stack, w :: ws =>
    if w = [] ∨ w = ['.'] then cleanCore rooted stack ws
    else if w = ['.', '.'] then
      match stack with
      | [] => if rooted then cleanCore rooted [] ws else cleanCore rooted [['.', '.']] ws
      | top :: rest =>
        if top = ['.', '.'] then cleanCore rooted (w :: stack) ws
        else cleanCore rooted rest ws
    else cleanCore rooted (w :: stack) ws

/-- Embedding of filepath.Clean for slash-separated paths. -/
def goClean (s : List Char) : List Char :=
  if s = [] then ['.']
  else
    let rooted : Bool := s.head? == some '/'
    let stack := cleanCore rooted [] (splitSlash s)
    let body := joinSlash stack.reverse
    if rooted then '/' :: body
    else if body = [] then ['.'] else body

/-- Embedding of filepath.Join: skip leading empty elements, join the rest
with slashes and clean the result; empty when every element is empty. -/
def goJoin (elems : List (List Char)) : List Char :=
  let rest := elems.dropWhile (fun w => w.isEmpty)
  if rest.isEmpty then [] else goClean (joinSlash rest)

/-- getDestPath from cmd/docker-inspector/main.go: split the source path
into slash components after removing the leading root slash; an entry is
skipped (empty result) when stripComponents reaches the component count,
otherwise the remaining components are re-rooted under a slash. -/
def getDestPath (sourcePath : String) (stripComponents : Nat) : String :=
  let parts := splitSlash (trimLeadSlash sourcePath.data)
  if parts.length ≤ stripComponents then ""
  else String.mk ('/' :: goJoin (parts.drop stripComponents))

example : getDestPath "/etc/nginx/nginx.conf" 2 = "/nginx.conf" := by decide
example : getDestPath "/etc/nginx/nginx.conf" 0 = "/etc/nginx/nginx.conf" := by decide
example : getDestPath "/etc/nginx/nginx.conf" 3 = "" := by decide
example : getDestPath "/" 0 = "/" := by decide
example : getDestPath "a" 0 = "/a" := by decide
example : getDestPath "/a//b" 0 = "/a/b" := by decide

/-- A slash-free character list splits into itself. -/
theorem splitSlashCore_no_slash (cs : List Char) (h : '/' ∉ cs) :
    splitSlashCore cs = (cs, []) := by
  induction cs with
  | nil => rfl
  | cons c rest ih =>
    have hc : c ≠ '/' := fun e => h (e ▸ List.mem_cons_self _ _)
    have hr : '/' ∉ rest := fun e => h (List.mem_cons_of_mem _ e)
    simp [splitSlashCore, ih hr, hc]

/-- Splitting a word, a slash and a remainder yields the word and the
split remainder. -/
theorem splitSlashCore_append (w rest : List Char) (h : '/' ∉ w) :
    splitSlashCore (w ++ '/' :: rest) = (w, splitSlash rest) := by
  induction w with
  | nil => simp [splitSlashCore, splitSlash]
  | cons c cw ih =>
    have hc : c ≠ '/' := fun e => h (e ▸ List.mem_cons_self _ _)
    have hw : '/' ∉ cw := fun e => h (List.mem_cons_of_mem _ e)
    simp [splitSlashCore, ih hw, hc]

/-- Splitting is a left inverse of joining for slash-free components. -/
theorem splitSlash_joinSlash (cs : List (List Char)) (hne : cs ≠ [])
    (h : ∀ w ∈ cs, '/' ∉ w) : splitSlash (joinSlash cs) = cs := by
  induction cs with
  | nil => cases hne rfl
  | cons w ws ih =>
    rcases ws with _ | ⟨w2, ws2⟩
    · have hw : '/' ∉ w := h w (List.mem_cons_self _ _)
      simp [joinSlash, splitSlash, splitSlashCore_no_slash w hw]
    · have hw : '/' ∉ w := h w (List.mem_cons_self _ _)
      have hrest := ih (by simp) fun x hx => h x (List.mem_cons_of_mem _ hx)
      show splitSlash (w ++ '/' :: joinSlash (w2 :: ws2)) = w :: w2 :: ws2
      rw [splitSlash, splitSlashCore_append _ _ hw]
      exact congrArg (fun l => w :: l) hrest

/-- Cleaning normal components (no empties, no dots) stacks them all. -/
theorem cleanCore_normal (r : Bool) (ws : List (List Char)) (stack : List (List Char))
    (h : ∀ w ∈ ws, w ≠ [] ∧ w ≠ ['.'] ∧ w ≠ ['.', '.']) :
    cleanCore r stack ws = ws.reverse ++ stack := by
  induction ws generalizing stack with
  | nil => simp [cleanCore]
  | cons w rest ih =>
    have hw := h w (List.mem_cons_self _ _)
    have hrest := fun x hx => h x (List.mem_cons_of_mem _ hx)
    have h1 : ¬(w = [] ∨ w = ['.']) := by
      rintro (e | e)
      · exact hw.1 e
      · exact hw.2.1 e
    simp only [cleanCore]
    rw [if_neg h1, if_neg hw.2.2, ih _ hrest]
    simp

/-- Head of a slash-join is the head of its first component. -/
theorem joinSlash_head (w : List Char) (ws : List (List Char)) (hw : w ≠ []) :
    (joinSlash (w :: ws)).head? = w.head? := by
  rcases ws with _ | ⟨w2, ws2⟩
  · rfl
  · rcases w with _ | ⟨c, cw⟩
    · cases hw rfl
    · rfl

/-- A slash-join of a nonempty component list with nonempty head is
nonempty. -/
theorem joinSlash_ne_nil (w : List Char) (ws : List (List Char)) (hw : w ≠ []) :
    joinSlash (w :: ws) ≠ [] := by
  rcases ws with _ | ⟨w2, ws2⟩
  · simpa [joinSlash] using hw
  · rcases w with _ | ⟨c, cw⟩
    · cases hw rfl
    · simp [joinSlash]

/-- Cleaning a join of normal components (nonempty, not dot entries, no
slashes) is the identity. -/
theorem goClean_normal (cs : List (List Char)) (hne : cs ≠ [])
    (h : ∀ w ∈ cs, w ≠ [] ∧ w ≠ ['.'] ∧ w ≠ ['.', '.'] ∧ '/' ∉ w) :
    goClean (joinSlash cs) = joinSlash cs := by
  rcases cs with _ | ⟨w0, ws⟩
  · cases hne rfl
  · rcases w0 with _ | ⟨c, cw⟩
    · exact absurd rfl (h [] (List.mem_cons_self _ _)).1
    · have hmem := h (c :: cw) (List.mem_cons_self _ _)
      have hc : c ≠ '/' := fun e => hmem.2.2.2 (by rw [← e]; exact List.mem_cons_self _ _)
      have hJne := joinSlash_ne_nil (c :: cw) ws (by simp)
      have hhead : (joinSlash ((c :: cw) :: ws)).head? = some c :=
        joinSlash_head (c :: cw) ws (by simp)
      have hsplit := splitSlash_joinSlash ((c :: cw) :: ws) (by simp)
        (fun w hw => (h w hw).2.2.2)
      have hstack := cleanCore_normal false ((c :: cw) :: ws) []
        (fun w hw => ⟨(h w hw).1, (h w hw).2.1, (h w hw).2.2.1⟩)
      have hcb : (c == '/') = false := by simp [hc]
      simp [goClean, hJne, hhead, hc, hcb, hsplit, hstack]

/-- Joining normal components needs no cleaning. -/
theorem goJoin_normal (cs : List (List Char)) (hne : cs ≠ [])
    (h : ∀ w ∈ cs, w ≠ [] ∧ w ≠ ['.'] ∧ w ≠ ['.', '.'] ∧ '/' ∉ w) :
    goJoin cs = joinSlash cs := by
  rcases cs with _ | ⟨w0, ws⟩
  · cases hne rfl
  · rcases w0 with _ | ⟨c, cw⟩
    · exact absurd rfl (h [] (List.mem_cons_self _ _)).1
    · have hdw : (List.dropWhile (fun w => w.isEmpty) ((c :: cw) :: ws)) = (c :: cw) :: ws := by
        rw [List.dropWhile_cons]
        simp
      simp [goJoin, hdw, goClean_normal ((c :: cw) :: ws) (by simp) h]

/-- C6 counterexample: with stripComponents = 0 the transform does not
always return the full original path. The absolute but non-clean source
path /a//b is rewritten to /a/b, and a relative source path a is rerooted
to /a. -/
theorem getDestPath_zero_not_identity :
    getDestPath "/a//b" 0 = "/a/b" ∧ "/a/b" ≠ "/a//b" ∧
    getDestPath "a" 0 = "/a" ∧ "/a" ≠ "a" := by
  refine ⟨by decide, by decide, by decide, by decide⟩

/-- C6 amended: an entry is skipped (empty destination) exactly when
stripComponents is at least the number of slash components of the source
path after removing the leading root slash; and stripComponents = 0
preserves the full original path for clean absolute paths, that is paths
of the form a leading slash followed by nonempty, dot-free, slash-free
components. -/
theorem getDestPath_spec (p : String) (n : Nat) (cs : List (List Char)) :
    (getDestPath p n = "" ↔ (splitSlash (trimLeadSlash p.data)).length ≤ n) ∧
    (cs ≠ [] → (∀ w ∈ cs, w ≠ [] ∧ w ≠ ['.'] ∧ w ≠ ['.', '.'] ∧ '/' ∉ w) →
      getDestPath (String.mk ('/' :: joinSlash cs)) 0 = String.mk ('/' :: joinSlash cs)) := by
  constructor
  · by_cases h : (splitSlash (trimLeadSlash p.data)).length ≤ n
    · simp [getDestPath, h]
    · simp only [getDestPath, h, if_neg, not_false_iff, iff_false]
      intro he
      have := congrArg String.data he
      simp at this
  · intro hne hall
    have hsplit : splitSlash (trimLeadSlash (String.mk ('/' :: joinSlash cs)).data) = cs := by
      show splitSlash (trimLeadSlash ('/' :: joinSlash cs)) = cs
      rw [show trimLeadSlash ('/' :: joinSlash cs) = joinSlash cs from rfl]
      exact splitSlash_joinSlash cs hne fun w hw => (hall w hw).2.2.2
    rw [getDestPath]
    simp only [hsplit, List.drop_zero]
    rw [if_neg (Nat.not_le.mpr (List.length_pos.mpr hne))]
    rw [goJoin_normal cs hne hall]

/-- Decidable equality for Except values with decidable components. -/
instance instDecEqExcept {e a : Type} [DecidableEq e] [DecidableEq a] :
    DecidableEq (Except e a)
  | Except.ok x, Except.ok y =>
    if h : x = y then Decidable.isTrue (by rw [h])
    else Decidable.isFalse fun hc => absurd (Except.ok.inj hc) h
  | Except.ok _, Except.error _ => Decidable.isFalse fun hc => Except.noConfusion hc
  | Except.error _, Except.ok _ => Decidable.isFalse fun hc => Except.noConfusion hc
  | Except.error x, Except.error y =>
    if h : x = y then Decidable.isTrue (by rw [h])
    else Decidable.isFalse fun hc => absurd (Except.error.inj hc) h

/-- Go %q rendering of a plain string (no escaping needed for the inputs
considered here). -/
def quoteStr (s : String) : String :=
  "\"" ++ s ++ "\""

/-- Embedding of strconv.Atoi on idealized integers: optional sign, then
one or more decimal digits. -/
def goAtoi (s : String) : Except String Int :=
  let sd : Bool × List Char :=
    match s.data with
    | '-' :: rest => (true, rest)
    | '+' :: rest => (false, rest)
    | cs => (false, cs)
  if sd.2 ≠ [] ∧ sd.2.all Char.isDigit then
    let v : Int := sd.2.foldl (fun a c => a * 10 + ((c.toNat : Int) - ('0'.toNat : Int))) 0
    Except.ok (if sd.1 then -v else v)
  else Except.error ("strconv.Atoi: parsing " ++ quoteStr s ++ ": invalid syntax")

/-- Index of the last occurrence of a character, -1 when absent
(embedding of strings.LastIndex for one-character needles; ASCII inputs
make byte and character indices coincide). -/
def lastIdxOf (cs : List Char) (c : Char) : Int :=
  match cs.reverse.findIdx? (fun x => x == c) with
  | none => -1
  | some i => (cs.length : Int) - 1 - (i : Int)

/-- extractID from cmd/docker-inspector/main.go: parse the numeric id out
of a display string of the shape name(id), via the last parenthesis pair. -/
def extractID (s : String) : Except String Int :=
  let openIdx := lastIdxOf s.data '('
  let closeIdx := lastIdxOf s.data ')'
  if openIdx = -1 ∨ closeIdx = -1 ∨ openIdx ≥ closeIdx then
    Except.error ("no ID found in " ++ quoteStr s)
  else
    let idStr := String.mk ((s.data.take closeIdx.toNat).drop (openIdx.toNat + 1))
    match goAtoi idStr with
    | Except.ok id => Except.ok id
    | Except.error e => Except.error ("invalid ID in " ++ quoteStr s ++ ": " ++ e)

example : extractID "nginx(101)" = Except.ok 101 := by decide
example : extractID "(0)" = Except.ok 0 := by decide
example : extractID "root" = Except.error "no ID found in \"root\"" := by decide

/-! Snapshotter model: filesystem trees, filepath.Walk, and the two
internal-inspector walk callbacks present in the repository. -/

/-- Visit error handed to a walk callback (directory read or stat failure);
notExist records whether os.IsNotExist would hold for it. -/
structure VisitErr where
  notExist : Bool
  msg : String
deriving DecidableEq, Repr

/-- Per-node metadata as the walk callback observes it: lstat results plus
the outcomes of the readlink and file-read side calls, attached as oracles. -/
structure NodeMeta where
  kind : FKind
  size : Int
  modeStr : String
  modTime : Int
  linkTarget : String
  md5Res : Except String String
  visitErr : Option VisitErr
deriving DecidableEq, Repr

/-- A filesystem tree: one node with its metadata and children. -/
inductive FSNode where
  | mk (path : String) (meta : NodeMeta) (children : List FSNode)

/-- Path of a node. -/
def FSNode.path : FSNode → String
  | .mk p _ _ => p

/-- Metadata of a node. -/
def FSNode.meta : FSNode → NodeMeta
  | .mk _ m _ => m

/-- Children of a node. -/
def FSNode.children : FSNode → List FSNode
  | .mk _ _ c => c

/-- Kind of a node. -/
def FSNode.kind (n : FSNode) : FKind :=
  n.meta.kind

/-- Walk state: collected entries plus the counters both inspector
variants keep. -/
structure SnapState where
  files : List FileInfo
  totalSize : Int
  dirCount : Nat
  fileCount : Nat
  md5Count : Nat
  md5ErrorCount : Nat
  skippedCount : Nat
deriving DecidableEq, Repr

/-- Initial walk state. -/
def initState : SnapState :=
  { files := [], totalSize := 0, dirCount := 0, fileCount := 0,
    md5Count := 0, md5ErrorCount := 0, skippedCount := 0 }

/-- Value returned by a walk callback: nil, filepath.SkipDir, or a real
error. -/
inductive Ctl where
  | cont
  | skipDir
  | fatal (msg : String)
deriving DecidableEq, Repr

/-- Result of walking one subtree: nil, a propagating SkipDir, or an
aborting error. -/
inductive WRes where
  | ok
  | skipDir
  | fatal (msg : String)
deriving DecidableEq, Repr

/-- Conversion of a callback result to a subtree result. -/
def ctlRes : Ctl → WRes
  | Ctl.cont => WRes.ok
  | Ctl.skipDir => WRes.skipDir
  | Ctl.fatal e => WRes.fatal e

/-- Type of a walk callback over the snap state. -/
def SnapCB : Type :=
  SnapState → String → NodeMeta → Option VisitErr → SnapState × Ctl

mutual

/-- Embedding of the walk function of path/filepath.Walk on one node whose
lstat succeeded: visit the node (a directory visit carries its read error,
if any), then descend into the children unless skipped. -/
def goWalk (cb : SnapCB) (st : SnapState) : FSNode → SnapState × WRes
  | FSNode.mk p m cs =>
    if m.kind = FKind.dir then
      match cb st p m m.visitErr with
      | (st1, c) =>
        match m.visitErr with
        | some _ => (st1, ctlRes c)
        | none =>
          match c with
          | Ctl.cont => goWalkList cb st1 cs
          | Ctl.skipDir => (st1, WRes.skipDir)
          | Ctl.fatal e => (st1, WRes.fatal e)
    else
      match cb st p m none with
      | (st1, c) => (st1, ctlRes c)

/-- Walk a list of sibling nodes: SkipDir from a directory child only
prunes that subtree; SkipDir from a non-directory child skips the
remaining siblings; a real error aborts. -/
def goWalkList (cb : SnapCB) (st : SnapState) : List FSNode → SnapState × WRes
  | [] => (st, WRes.ok)
  | n :: rest =>
    match goWalk cb st n with
    | (st1, WRes.ok) => goWalkList cb st1 rest
    | (st1, WRes.skipDir) =>
      if n.kind = FKind.dir then goWalkList cb st1 rest else (st1, WRes.skipDir)
    | (st1, WRes.fatal e) => (st1, WRes.fatal e)

end

/-- Arguments of the JSON-only internal-inspector variant. -/
structure ArgsP1 where
  pattern : String
  md5 : Bool
  noTimes : Bool
deriving DecidableEq, Repr

/-- Arguments of the cmd/internal-inspector variant. -/
structure ArgsCmd where
  pattern : String
  md5 : Bool
  noTimes : Bool
  json : Bool
deriving DecidableEq, Repr

/-- Entry as both inspector variants build it before hashing: owner and
group are the constant root strings; the symlink target comes from the
readlink call on symlink nodes. -/
def baseEntry (noTimes : Bool) (path : String) (m : NodeMeta) (symlinkTo : String) : FileInfo :=
  { path := path, size := m.size, mode := m.modeStr,
    modTime := if noTimes then none else some m.modTime,
    isDir := decide (m.kind = FKind.dir), symlinkTo := symlinkTo,
    user := "root", group := "root", md5 := "" }

/-- Shared non-hash bookkeeping of a retained node: count it and its size. -/
def countNode (st : SnapState) (m : NodeMeta) : SnapState :=
  let st1 :=
    if m.kind = FKind.dir then { st with dirCount := st.dirCount + 1 }
    else { st with fileCount := st.fileCount + 1 }
  { st1 with totalSize := st1.totalSize + m.size }

/-- Walk callback of the JSON-only variant (unnamed part_001): the
pseudo-filesystem exclusion is tested first, before anything else; the MD5
digest is gated on non-directory, positive size and empty symlink target,
and a digest failure is always recorded inline as an error sentinel. -/
def visitP1 (dsMatch : String → String → Except String Bool) (args : ArgsP1) : SnapCB :=
  fun st path m err =>
    if strStarts path "/proc" || strStarts path "/sys" || strStarts path "/dev" then
      ({ st with skippedCount := st.skippedCount + 1 }, Ctl.skipDir)
    else
      match err with
      | some _ =>
        if m.kind = FKind.dir then
          ({ st with skippedCount := st.skippedCount + 1 }, Ctl.skipDir)
        else
          ({ st with skippedCount := st.skippedCount + 1 }, Ctl.cont)
      | none =>
        match if args.pattern ≠ "" then dsMatch args.pattern path else Except.ok true with
        | Except.error e => (st, Ctl.fatal ("invalid pattern: " ++ e))
        | Except.ok false => (st, Ctl.cont)
        | Except.ok true =>
          let symlinkTo := if m.kind = FKind.symlink then m.linkTarget else ""
          let st1 := countNode st m
          let fi := baseEntry args.noTimes path m symlinkTo
          if args.md5 ∧ m.kind ≠ FKind.dir ∧ m.size > 0 ∧ symlinkTo = "" then
            match m.md5Res with
            | Except.ok h =>
              let fi2 := { fi with md5 := h }
              ({ st1 with
                  files := st1.files ++ [fi2],
                  md5Count := st1.md5Count + 1 }, Ctl.cont)
            | Except.error e =>
              let fi2 := { fi with md5 := "error: " ++ e }
              ({ st1 with
                  files := st1.files ++ [fi2],
                  md5ErrorCount := st1.md5ErrorCount + 1 }, Ctl.cont)
          else
            ({ st1 with files := st1.files ++ [fi] }, Ctl.cont)

/-- Walk callback of the cmd/internal-inspector variant: the
pseudo-filesystem test only runs inside the error branch; the MD5 digest is
gated solely on not being a directory, and a digest failure is recorded as
an error sentinel only when JSON output was requested. -/
def visitCmd (dsMatch : String → String → Except String Bool) (args : ArgsCmd) : SnapCB :=
  fun st path m err =>
    match err with
    | some e =>
      if e.notExist || strStarts path "/proc" || strStarts path "/sys" ||
          strStarts path "/dev" then
        ({ st with skippedCount := st.skippedCount + 1 }, Ctl.skipDir)
      else
        ({ st with skippedCount := st.skippedCount + 1 }, Ctl.cont)
    | none =>
      match if args.pattern ≠ "" then dsMatch args.pattern path else Except.ok true with
      | Except.error e => (st, Ctl.fatal ("invalid pattern: " ++ e))
      | Except.ok false => (st, Ctl.cont)
      | Except.ok true =>
        let symlinkTo := if m.kind = FKind.symlink then m.linkTarget else ""
        let st1 := countNode st m
        let fi := baseEntry args.noTimes path m symlinkTo
        if args.md5 ∧ m.kind ≠ FKind.dir then
          match m.md5Res with
          | Except.ok h =>
            let fi2 := { fi with md5 := h }
            ({ st1 with
                files := st1.files ++ [fi2],
                md5Count := st1.md5Count + 1 }, Ctl.cont)
          | Except.error e =>
            let fi2 := if args.json then { fi with md5 := "error: " ++ e } else fi
            ({ st1 with
                files := st1.files ++ [fi2],
                md5ErrorCount := st1.md5ErrorCount + 1 }, Ctl.cont)
        else
          ({ st1 with files := st1.files ++ [fi] }, Ctl.cont)

/-- Lexicographic order on character lists by code point; on UTF-8 encoded
strings this coincides with the byte-wise comparison Go uses for string
less-than. -/
def charListLt : List Char → List Char → Bool
  | [], [] => false
  | [], _ :: _ => true
  | _ :: _, [] => false
  | a :: as, b :: bs =>
    if a.toNat < b.toNat then true
    else if b.toNat < a.toNat then false
    else charListLt as bs

/-- Go string less-than. -/
def strLt (a b : String) : Bool :=
  charListLt a.data b.data

/-- Insert an entry into a path-sorted list. -/
def insertByPath (f : FileInfo) : List FileInfo → List FileInfo
  | [] => [f]
  | g :: rest => if strLt f.path g.path then f :: g :: rest else g :: insertByPath f rest

/-- Sort the collected entries by path: sort.Slice with a strict path
comparison leaves the order among equal paths unspecified, so any sorted
rearrangement models it; insertion sort is the one used here. -/
def sortByPath : List FileInfo → List FileInfo
  | [] => []
  | f :: rest => insertByPath f (sortByPath rest)

/-- Snapshot of the JSON-only variant: walk from the root, abort with no
output on a fatal walk error (pattern errors are neither permission nor
not-exist errors), otherwise sort by path. -/
def snapP1 (dsMatch : String → String → Except String Bool) (args : ArgsP1)
    (root : FSNode) : Option (List FileInfo) :=
  match goWalk (visitP1 dsMatch args) initState root with
  | (_, WRes.fatal _) => none
  | (st, _) => some (sortByPath st.files)

/-- Snapshot of the cmd/internal-inspector variant. -/
def snapCmd (dsMatch : String → String → Except String Bool) (args : ArgsCmd)
    (root : FSNode) : Option (List FileInfo) :=
  match goWalk (visitCmd dsMatch args) initState root with
  | (_, WRes.fatal _) => none
  | (st, _) => some (sortByPath st.files)

/-- Matcher that accepts every path (models an absent or match-all glob). -/
def matchAll : String → String → Except String Bool :=
  fun _ _ => Except.ok true

/-- Metadata of a clean directory node. -/
def metaDir : NodeMeta :=
  { kind := FKind.dir, size := 0, modeStr := "drwxr-xr-x", modTime := 0,
    linkTarget := "", md5Res := Except.ok "", visitErr := none }

/-- Metadata of a clean regular file of a given size and digest outcome. -/
def metaFile (sz : Int) (res : Except String String) : NodeMeta :=
  { kind := FKind.regular, size := sz, modeStr := "-rw-r--r--", modTime := 0,
    linkTarget := "", md5Res := res, visitErr := none }

/-- A filesystem with a readable /proc subtree (as inside any running
container): / contains /proc which contains /proc/version. -/
def fsProc : FSNode :=
  FSNode.mk "/" metaDir
    [FSNode.mk "/proc" metaDir
      [FSNode.mk "/proc/version" (metaFile 23 (Except.ok "0123456789abcdef01234567")) []]]

example : (sortByPath [fiB, fiA]).map FileInfo.path = ["/a", "/b"] := by rfl

example :
    (snapCmd matchAll { pattern := "", md5 := false, noTimes := true, json := true }
        fsProc).map (List.map FileInfo.path) =
      some ["/", "/proc", "/proc/version"] := by decide

mutual

/-- Invariant propagation along a walk: if every callback call only
appends entries satisfying P, the walk only accumulates such entries. -/
theorem goWalk_files_inv (cb : SnapCB) (P : FileInfo → Prop)
    (hcb : ∀ st path m err, ∀ fi ∈ (cb st path m err).1.files, fi ∈ st.files ∨ P fi)
    (n : FSNode) :
    ∀ (st : SnapState), ∀ fi ∈ (goWalk cb st n).1.files, fi ∈ st.files ∨ P fi := by
  rcases n with ⟨p, m, cs⟩
  intro st fi hfi
  rw [goWalk] at hfi
  by_cases hk : m.kind = FKind.dir
  · rw [if_pos hk] at hfi
    rcases hc : cb st p m m.visitErr with ⟨st1, c⟩
    rw [hc] at hfi
    have hstep : ∀ g ∈ st1.files, g ∈ st.files ∨ P g := by
      intro g hg
      have := hcb st p m m.visitErr
      rw [hc] at this
      exact this g hg
    rcases hv : m.visitErr with _ | e
    · rw [hv] at hfi
      rcases c with _ | _ | e2
      · simp only at hfi
        rcases goWalkList_files_inv cb P hcb cs st1 fi hfi with h | h
        · exact hstep fi h
        · exact Or.inr h
      · exact hstep fi hfi
      · exact hstep fi hfi
    · rw [hv] at hfi
      exact hstep fi hfi
  · rw [if_neg hk] at hfi
    rcases hc : cb st p m none with ⟨st1, c⟩
    rw [hc] at hfi
    have := hcb st p m none
    rw [hc] at this
    exact this fi hfi

/-- Invariant propagation along a sibling walk. -/
theorem goWalkList_files_inv (cb : SnapCB) (P : FileInfo → Prop)
    (hcb : ∀ st path m err, ∀ fi ∈ (cb st path m err).1.files, fi ∈ st.files ∨ P fi)
    (l : List FSNode) :
    ∀ (st : SnapState), ∀ fi ∈ (goWalkList cb st l).1.files, fi ∈ st.files ∨ P fi := by
  rcases l with _ | ⟨n, rest⟩
  · intro st fi hfi
    rw [goWalkList] at hfi
    exact Or.inl hfi
  · intro st fi hfi
    rw [goWalkList] at hfi
    rcases hw : goWalk cb st n with ⟨st1, r⟩
    rw [hw] at hfi
    have hstep : ∀ g ∈ st1.files, g ∈ st.files ∨ P g := by
      intro g hg
      have := goWalk_files_inv cb P hcb n st
      rw [hw] at this
      exact this g hg
    rcases r with _ | _ | e
    · rcases goWalkList_files_inv cb P hcb rest st1 fi hfi with h | h
      · exact hstep fi h
      · exact Or.inr h
    · simp only at hfi
      by_cases hk : n.kind = FKind.dir
      · rw [if_pos hk] at hfi
        rcases goWalkList_files_inv cb P hcb rest st1 fi hfi with h | h
        · exact hstep fi h
        · exact Or.inr h
      · rw [if_neg hk] at hfi
        exact hstep fi hfi
    · exact hstep fi hfi

end

/-- Counting a node never touches the collected files. -/
theorem countNode_files (st : SnapState) (m : NodeMeta) :
    (countNode st m).files = st.files := by
  rw [countNode]
  split <;> rfl

/-- Entry-level invariant established by every call of the JSON-only
callback: a newly appended entry is outside the three excluded prefixes,
carries the constant root owner and group, and carries a non-empty hash
field only under the full MD5 gate. -/
def p1EntryOK (args : ArgsP1) (fi : FileInfo) : Prop :=
  strStarts fi.path "/proc" = false ∧ strStarts fi.path "/sys" = false ∧
  strStarts fi.path "/dev" = false ∧ fi.user = "root" ∧ fi.group = "root" ∧
  (fi.md5 ≠ "" → args.md5 = true ∧ fi.isDir = false ∧ fi.symlinkTo = "" ∧ fi.size > 0)

/-- The JSON-only callback only appends entries satisfying p1EntryOK. -/
theorem visitP1_files (dsMatch : String → String → Except String Bool) (args : ArgsP1)
    (st : SnapState) (path : String) (m : NodeMeta) (err : Option VisitErr) :
    ∀ fi ∈ ((visitP1 dsMatch args) st path m err).1.files,
      fi ∈ st.files ∨ p1EntryOK args fi := by
  intro fi hfi
  rcases err with _ | e
  · simp only [visitP1] at hfi
    by_cases hpre :
        (strStarts path "/proc" || strStarts path "/sys" || strStarts path "/dev") = true
    · rw [if_pos hpre] at hfi
      exact Or.inl hfi
    · rw [if_neg hpre] at hfi
      have h3 : (strStarts path "/proc" = false ∧ strStarts path "/sys" = false) ∧
          strStarts path "/dev" = false := by
        simpa [not_or] using hpre
      rcases hm : (if args.pattern ≠ "" then dsMatch args.pattern path else Except.ok true) with
        e2 | b
      · rw [hm] at hfi
        exact Or.inl hfi
      · rw [hm] at hfi
        rcases b with _ | _
        · exact Or.inl hfi
        · simp only at hfi
          by_cases hg : args.md5 = true ∧ m.kind ≠ FKind.dir ∧ m.size > 0 ∧
              (if m.kind = FKind.symlink then m.linkTarget else "") = ""
          · rw [if_pos hg] at hfi
            rcases hres : m.md5Res with h | e3 <;> rw [hres] at hfi <;>
              simp only [countNode_files, List.mem_append, List.mem_singleton] at hfi <;>
              rcases hfi with h1 | h1
            · exact Or.inl h1
            · subst h1
              refine Or.inr ⟨h3.1.1, h3.1.2, h3.2, rfl, rfl, fun _ => ?_⟩
              refine ⟨hg.1, ?_, hg.2.2.2, hg.2.2.1⟩
              simp [baseEntry, hg.2.1]
            · exact Or.inl h1
            · subst h1
              refine Or.inr ⟨h3.1.1, h3.1.2, h3.2, rfl, rfl, fun _ => ?_⟩
              refine ⟨hg.1, ?_, hg.2.2.2, hg.2.2.1⟩
              simp [baseEntry, hg.2.1]
          · rw [if_neg hg] at hfi
            simp only [countNode_files, List.mem_append, List.mem_singleton] at hfi
            rcases hfi with h1 | h1
            · exact Or.inl h1
            · subst h1
              refine Or.inr ⟨h3.1.1, h3.1.2, h3.2, rfl, rfl, fun hmd => ?_⟩
              exact absurd rfl hmd
  · simp only [visitP1] at hfi
    by_cases hpre :
        (strStarts path "/proc" || strStarts path "/sys" || strStarts path "/dev") = true
    · rw [if_pos hpre] at hfi
      exact Or.inl hfi
    · rw [if_neg hpre] at hfi
      by_cases hk : m.kind = FKind.dir
      · rw [if_pos hk] at hfi
        exact Or.inl hfi
      · rw [if_neg hk] at hfi
        exact Or.inl hfi

/-- Insertion keeps exactly the old members plus the new entry. -/
theorem mem_insertByPath (f x : FileInfo) (l : List FileInfo) :
    x ∈ insertByPath f l ↔ x = f ∨ x ∈ l := by
  induction l with
  | nil => simp [insertByPath]
  | cons g rest ih =>
    by_cases h : strLt f.path g.path
    · simp [insertByPath, h]
    · simp only [insertByPath, h, if_neg, not_false_iff, Bool.false_eq_true, List.mem_cons, ih]
      tauto

/-- Sorting keeps exactly the members. -/
theorem mem_sortByPath (x : FileInfo) (l : List FileInfo) :
    x ∈ sortByPath l ↔ x ∈ l := by
  induction l with
  | nil => simp [sortByPath]
  | cons f rest ih =>
    simp [sortByPath, mem_insertByPath, ih]

/-- Entries of a produced p1-variant snapshot satisfy the entry invariant. -/
theorem snapP1_entries (dsMatch : String → String → Except String Bool) (args : ArgsP1)
    (root : FSNode) (snap : List FileInfo) (hs : snapP1 dsMatch args root = some snap) :
    ∀ fi ∈ snap, p1EntryOK args fi := by
  intro fi hfi
  rw [snapP1] at hs
  rcases hw : goWalk (visitP1 dsMatch args) initState root with ⟨st, r⟩
  rw [hw] at hs
  have hmem : fi ∈ st.files := by
    rcases r with _ | _ | e
    · simp only [Option.some.injEq] at hs
      rw [← hs] at hfi
      exact (mem_sortByPath _ _).mp hfi
    · simp only [Option.some.injEq] at hs
      rw [← hs] at hfi
      exact (mem_sortByPath _ _).mp hfi
    · cases hs
  have hinv := goWalk_files_inv (visitP1 dsMatch args) (p1EntryOK args)
    (fun st2 p2 m2 e2 => visitP1_files dsMatch args st2 p2 m2 e2) root initState
  rw [hw] at hinv
  rcases hinv fi hmem with h | h
  · cases h
  · exact h

/-- The cmd-variant callback only appends entries with the constant root
owner and group display strings. -/
theorem visitCmd_files (dsMatch : String → String → Except String Bool) (args : ArgsCmd)
    (st : SnapState) (path : String) (m : NodeMeta) (err : Option VisitErr) :
    ∀ fi ∈ ((visitCmd dsMatch args) st path m err).1.files,
      fi ∈ st.files ∨ (fi.user = "root" ∧ fi.group = "root") := by
  intro fi hfi
  rcases err with _ | e
  · simp only [visitCmd] at hfi
    rcases hm : (if args.pattern ≠ "" then dsMatch args.pattern path else Except.ok true) with
      e2 | b
    · rw [hm] at hfi
      exact Or.inl hfi
    · rw [hm] at hfi
      rcases b with _ | _
      · exact Or.inl hfi
      · simp only at hfi
        by_cases hg : args.md5 = true ∧ m.kind ≠ FKind.dir
        · rw [if_pos hg] at hfi
          rcases hres : m.md5Res with h | e3 <;> rw [hres] at hfi <;>
            simp only [countNode_files, List.mem_append, List.mem_singleton] at hfi <;>
            rcases hfi with h1 | h1
          · exact Or.inl h1
          · subst h1
            by_cases hj : args.json = true
            · rw [if_pos hj]
              exact Or.inr ⟨rfl, rfl⟩
            · rw [if_neg hj]
              exact Or.inr ⟨rfl, rfl⟩
          · exact Or.inl h1
          · subst h1
            exact Or.inr ⟨rfl, rfl⟩
        · rw [if_neg hg] at hfi
          simp only [countNode_files, List.mem_append, List.mem_singleton] at hfi
          rcases hfi with h1 | h1
          · exact Or.inl h1
          · subst h1
            exact Or.inr ⟨rfl, rfl⟩
  · simp only [visitCmd] at hfi
    split at hfi
    · exact Or.inl hfi
    · exact Or.inl hfi

/-- Entries of a produced cmd-variant snapshot carry the constant root
owner and group. -/
theorem snapCmd_entries (dsMatch : String → String → Except String Bool) (args : ArgsCmd)
    (root : FSNode) (snap : List FileInfo) (hs : snapCmd dsMatch args root = some snap) :
    ∀ fi ∈ snap, fi.user = "root" ∧ fi.group = "root" := by
  intro fi hfi
  rw [snapCmd] at hs
  rcases hw : goWalk (visitCmd dsMatch args) initState root with ⟨st, r⟩
  rw [hw] at hs
  have hmem : fi ∈ st.files := by
    rcases r with _ | _ | e
    · simp only [Option.some.injEq] at hs
      rw [← hs] at hfi
      exact (mem_sortByPath _ _).mp hfi
    · simp only [Option.some.injEq] at hs
      rw [← hs] at hfi
      exact (mem_sortByPath _ _).mp hfi
    · cases hs
  have hinv := goWalk_files_inv (visitCmd dsMatch args)
    (fun fi => fi.user = "root" ∧ fi.group = "root")
    (fun st2 p2 m2 e2 => visitCmd_files dsMatch args st2 p2 m2 e2) root initState
  rw [hw] at hinv
  rcases hinv fi hmem with h | h
  · cases h
  · exact h

/-- A decomposable string starts with its prefix. -/
theorem strStarts_of_eq_append (pre r s : String) (h : s = pre ++ r) :
    strStarts s pre = true :=
  (strStarts_iff s pre).mpr ⟨r, h⟩

/-- C1 counterexample (cmd/internal-inspector): with a readable /proc, the
exclusion test never runs (it sits inside the error branch), so the
snapshot includes /proc and its whole subtree; /proc/version lies strictly
beneath the /proc mount point. -/
theorem snapCmd_includes_proc_subtree :
    (snapCmd matchAll { pattern := "", md5 := false, noTimes := true, json := true }
        fsProc).map (List.map FileInfo.path) =
      some ["/", "/proc", "/proc/version"] ∧
    "/proc/version" = "/proc/" ++ "version" := by
  exact ⟨by decide, by decide⟩

/-- C1 (amended, p1 variant): the JSON-only inspector tests the exclusion
list before visiting a node, answers SkipDir without recording anything,
and consequently no snapshot entry lies at or beneath /proc, /sys or /dev. -/
theorem snapP1_excludes_pseudo (dsMatch : String → String → Except String Bool)
    (args : ArgsP1) (root : FSNode) (snap : List FileInfo)
    (hs : snapP1 dsMatch args root = some snap) :
    (∀ fi ∈ snap, ∀ r : String,
      fi.path ≠ "/proc" ++ r ∧ fi.path ≠ "/sys" ++ r ∧ fi.path ≠ "/dev" ++ r) ∧
    (∀ (st : SnapState) (path : String) (m : NodeMeta) (err : Option VisitErr),
      (strStarts path "/proc" || strStarts path "/sys" || strStarts path "/dev") = true →
      (visitP1 dsMatch args) st path m err =
        ({ st with skippedCount := st.skippedCount + 1 }, Ctl.skipDir)) := by
  constructor
  · intro fi hfi r
    have hok := snapP1_entries dsMatch args root snap hs fi hfi
    refine ⟨fun he => ?_, fun he => ?_, fun he => ?_⟩
    · have hx := strStarts_of_eq_append "/proc" r fi.path he
      rw [hok.1] at hx
      cases hx
    · have hx := strStarts_of_eq_append "/sys" r fi.path he
      rw [hok.2.1] at hx
      cases hx
    · have hx := strStarts_of_eq_append "/dev" r fi.path he
      rw [hok.2.2.1] at hx
      cases hx
  · intro st path m err hpre
    rw [visitP1.eq_def]
    rw [if_pos hpre]

/-- Witness for the C1 amended theorem at a concrete filesystem: the p1
snapshot of the /proc-bearing tree contains only the root entry, which
lies under none of the pseudo-filesystem mounts. -/
def rootOnlyEntry : FileInfo :=
  { path := "/", size := 0, mode := "drwxr-xr-x", modTime := none, isDir := true,
    symlinkTo := "", user := "root", group := "root", md5 := "" }

/-- Witness applying the C1 amended theorem to the /proc filesystem. -/
theorem snapP1_excludes_pseudo_witness :
    rootOnlyEntry.path ≠ "/proc" ++ "/version" ∧
    (visitP1 matchAll { pattern := "", md5 := false, noTimes := true })
        initState "/proc" metaDir none =
      ({ initState with skippedCount := initState.skippedCount + 1 }, Ctl.skipDir) := by
  have h := snapP1_excludes_pseudo matchAll
    { pattern := "", md5 := false, noTimes := true } fsProc [rootOnlyEntry] (by decide)
  exact ⟨(h.1 rootOnlyEntry (by decide) "/version").1,
    h.2 initState "/proc" metaDir none (by decide)⟩

/-- Metadata of a clean symlink node. -/
def metaLink (target : String) (res : Except String String) : NodeMeta :=
  { kind := FKind.symlink, size := (target.data.length : Int), modeStr := "Lrwxrwxrwx",
    modTime := 0, linkTarget := target, md5Res := res, visitErr := none }

/-- A filesystem with a zero-length file and a symlink to a readable file. -/
def fsEdge : FSNode :=
  FSNode.mk "/" metaDir
    [FSNode.mk "/abc" (metaFile 3 (Except.ok "900150983cd24fb0d6963f7d28e17f72")) [],
     FSNode.mk "/empty" (metaFile 0 (Except.ok "d41d8cd98f00b204e9800998ecf8427e")) [],
     FSNode.mk "/link" (metaLink "/abc" (Except.ok "900150983cd24fb0d6963f7d28e17f72")) []]

/-- C2 counterexample (cmd/internal-inspector): hashing is gated only on
not being a directory, so the zero-length file /empty and the symlink
/link both carry content hashes in the snapshot. -/
theorem snapCmd_hashes_empty_and_symlink :
    (snapCmd matchAll { pattern := "", md5 := true, noTimes := true, json := true }
        fsEdge).map (List.map (fun fi => (fi.path, fi.size, fi.isDir, fi.symlinkTo, fi.md5))) =
      some [("/", 0, true, "", ""),
            ("/abc", 3, false, "", "900150983cd24fb0d6963f7d28e17f72"),
            ("/empty", 0, false, "", "d41d8cd98f00b204e9800998ecf8427e"),
            ("/link", 4, false, "/abc", "900150983cd24fb0d6963f7d28e17f72")] := by
  decide

/-- C2 (amended, p1 variant): in the JSON-only inspector an entry carries a
non-empty hash field only when hashing was requested and the entry is a
non-directory with positive size and an empty symlink target, so
directories, symlinks (with a readable target) and zero-length files never
carry a content hash. -/
theorem snapP1_hash_gating (dsMatch : String → String → Except String Bool)
    (args : ArgsP1) (root : FSNode) (snap : List FileInfo)
    (hs : snapP1 dsMatch args root = some snap) :
    ∀ fi ∈ snap, fi.md5 ≠ "" →
      args.md5 = true ∧ fi.isDir = false ∧ fi.symlinkTo = "" ∧ fi.size > 0 := by
  intro fi hfi hmd
  exact (snapP1_entries dsMatch args root snap hs fi hfi).2.2.2.2.2 hmd

/-- Witness applying the C2 amended theorem: in the p1 snapshot of the
edge-case filesystem, the entry for /abc carries a hash and is indeed a
positive-size regular file; /empty and /link carry none. -/
theorem snapP1_hash_gating_witness :
    (snapP1 matchAll { pattern := "", md5 := true, noTimes := true }
        fsEdge).map (List.map (fun fi => (fi.path, fi.md5))) =
      some [("/", ""), ("/abc", "900150983cd24fb0d6963f7d28e17f72"),
            ("/empty", ""), ("/link", "")] ∧
    (true = true ∧ (false : Bool) = false ∧ "" = "" ∧ (3 : Int) > 0) := by
  constructor
  · decide
  · have h := snapP1_hash_gating matchAll { pattern := "", md5 := true, noTimes := true }
      fsEdge (sortByPath
        [{ path := "/", size := 0, mode := "drwxr-xr-x", modTime := none, isDir := true,
           symlinkTo := "", user := "root", group := "root", md5 := "" },
         { path := "/abc", size := 3, mode := "-rw-r--r--", modTime := none, isDir := false,
           symlinkTo := "", user := "root", group := "root",
           md5 := "900150983cd24fb0d6963f7d28e17f72" },
         { path := "/empty", size := 0, mode := "-rw-r--r--", modTime := none, isDir := false,
           symlinkTo := "", user := "root", group := "root", md5 := "" },
         { path := "/link", size := 4, mode := "Lrwxrwxrwx", modTime := none, isDir := false,
           symlinkTo := "/abc", user := "root", group := "root", md5 := "" }])
      (by decide)
      { path := "/abc", size := 3, mode := "-rw-r--r--", modTime := none, isDir := false,
        symlinkTo := "", user := "root", group := "root",
        md5 := "900150983cd24fb0d6963f7d28e17f72" }
      (by decide) (by decide)
    exact ⟨h.1, h.2.1, h.2.2.1, h.2.2.2⟩

/-- A filesystem whose only file fails to be read during hashing. -/
def fsErr : FSNode :=
  FSNode.mk "/" metaDir
    [FSNode.mk "/secret" (metaFile 5 (Except.error "open /secret: permission denied")) []]

/-- C8 counterexample (cmd/internal-inspector, tabular mode): when reading
/secret fails during hashing and JSON output is off, the error is only
counted; the entry is still included and the walk continues, but its hash
field stays empty instead of carrying the error sentinel. -/
theorem snapCmd_drops_sentinel_in_table_mode :
    (visitCmd matchAll { pattern := "", md5 := true, noTimes := true, json := false })
        initState "/secret" (metaFile 5 (Except.error "open /secret: permission denied"))
        none =
      ({ initState with
          files := [{ path := "/secret", size := 5, mode := "-rw-r--r--", modTime := none,
                      isDir := false, symlinkTo := "", user := "root", group := "root",
                      md5 := "" }],
          totalSize := 5, fileCount := 1, md5ErrorCount := 1 }, Ctl.cont) ∧
    (snapCmd matchAll { pattern := "", md5 := true, noTimes := true, json := false }
        fsErr).map (List.map (fun fi => (fi.path, fi.md5))) =
      some [("/", ""), ("/secret", "")] := by
  exact ⟨by decide, by decide⟩

/-- C8 (amended, p1 variant): when hashing is requested, the node
qualifies for hashing and the read fails, the JSON-only callback appends
the entry with the error sentinel in its hash field and returns nil, so
the entry is included and the walk continues. -/
theorem visitP1_error_sentinel (dsMatch : String → String → Except String Bool)
    (args : ArgsP1) (st : SnapState) (path : String) (m : NodeMeta) (e : String)
    (hpat : args.pattern = "")
    (hpre : (strStarts path "/proc" || strStarts path "/sys" || strStarts path "/dev") = false)
    (hgate : args.md5 = true ∧ m.kind ≠ FKind.dir ∧ m.size > 0 ∧
      (if m.kind = FKind.symlink then m.linkTarget else "") = "")
    (hres : m.md5Res = Except.error e) :
    ((visitP1 dsMatch args) st path m none).1.files =
      st.files ++
        [{ baseEntry args.noTimes path m (if m.kind = FKind.symlink then m.linkTarget else "")
            with md5 := "error: " ++ e }] ∧
    ((visitP1 dsMatch args) st path m none).2 = Ctl.cont := by
  have hconds : ¬(strStarts path "/proc" || strStarts path "/sys" ||
      strStarts path "/dev") = true := by
    rw [hpre]
    exact Bool.false_ne_true
  simp only [visitP1]
  rw [if_neg hconds]
  simp only [hpat, ne_eq, not_true_eq_false, if_false, ite_false]
  rw [if_pos hgate, hres]
  exact ⟨by simp [countNode_files], rfl⟩

/-- Witness applying the C8 amended theorem to the unreadable /secret
node: the appended entry carries the sentinel and the callback continues. -/
theorem visitP1_error_sentinel_witness :
    ((visitP1 matchAll { pattern := "", md5 := true, noTimes := true })
        initState "/secret" (metaFile 5 (Except.error "open /secret: permission denied"))
        none).1.files =
      initState.files ++
        [{ baseEntry true "/secret" (metaFile 5 (Except.error "open /secret: permission denied"))
            (if (metaFile 5 (Except.error "open /secret: permission denied")).kind =
                FKind.symlink
             then (metaFile 5 (Except.error "open /secret: permission denied")).linkTarget
             else "")
            with md5 := "error: " ++ "open /secret: permission denied" }] ∧
    ((visitP1 matchAll { pattern := "", md5 := true, noTimes := true })
        initState "/secret" (metaFile 5 (Except.error "open /secret: permission denied"))
        none).2 = Ctl.cont :=
  visitP1_error_sentinel matchAll { pattern := "", md5 := true, noTimes := true }
    initState "/secret" (metaFile 5 (Except.error "open /secret: permission denied"))
    "open /secret: permission denied" rfl (by decide)
    ⟨rfl, by decide, by decide, by decide⟩ rfl

/-- C5 Both inspector variants emit the constant display strings root for
the owner and group of every entry, never a name(id) or (id) form, and the
extraction side of the same repository cannot parse that constant: its
extractID helper fails on the string root. -/
theorem snapshot_owner_constant_root (dsMatch : String → String → Except String Bool)
    (argsC : ArgsCmd) (argsP : ArgsP1) (root : FSNode) (snapC snapP : List FileInfo)
    (hC : snapCmd dsMatch argsC root = some snapC)
    (hP : snapP1 dsMatch argsP root = some snapP) :
    (∀ fi ∈ snapC, fi.user = "root" ∧ fi.group = "root") ∧
    (∀ fi ∈ snapP, fi.user = "root" ∧ fi.group = "root") ∧
    extractID "root" = Except.error "no ID found in \"root\"" := by
  refine ⟨snapCmd_entries dsMatch argsC root snapC hC, ?_, by decide⟩
  intro fi hfi
  have h := snapP1_entries dsMatch argsP root snapP hP fi hfi
  exact ⟨h.2.2.2.1, h.2.2.2.2.1⟩

/-- Witness applying the C5 theorem to the /proc filesystem: the cmd
snapshot root entry carries the constant root owner strings and extractID
rejects them. -/
theorem snapshot_owner_constant_root_witness :
    rootOnlyEntry.user = "root" ∧ rootOnlyEntry.group = "root" ∧
    extractID "root" = Except.error "no ID found in \"root\"" := by
  have h := snapshot_owner_constant_root matchAll
    { pattern := "", md5 := false, noTimes := true, json := true }
    { pattern := "", md5 := false, noTimes := true } fsProc
    (sortByPath [rootOnlyEntry,
      { rootOnlyEntry with path := "/proc" },
      { rootOnlyEntry with
          path := "/proc/version",
          size := 23,
          mode := "-rw-r--r--",
          isDir := false }])
    [rootOnlyEntry] (by decide) (by decide)
  exact ⟨(h.2.1 rootOnlyEntry (by decide)).1, (h.2.1 rootOnlyEntry (by decide)).2, h.2.2⟩

/-- Witness applying the C6 theorem: the skip condition at a concrete path
and count, and identity of the transform on the clean absolute path
/etc/ab at stripComponents zero. -/
theorem getDestPath_spec_witness :
    (getDestPath "/x" 1 = "" ↔ (splitSlash (trimLeadSlash "/x".data)).length ≤ 1) ∧
    getDestPath (String.mk ('/' :: joinSlash [['e', 't', 'c'], ['a', 'b']])) 0 =
      String.mk ('/' :: joinSlash [['e', 't', 'c'], ['a', 'b']]) :=
  ⟨(getDestPath_spec "/x" 1 [['e', 't', 'c'], ['a', 'b']]).1,
   (getDestPath_spec "/x" 1 [['e', 't', 'c'], ['a', 'b']]).2 (by decide) (by decide)⟩
